import Mathlib

/-!
Verification of the word-search game engine (src/src/app/page.tsx).

The definitions below are a shallow embedding of the TypeScript source:
the grid generator `generateGrid`, the selection helpers `getLine` and
`getSelectedWord`, and the game-state transition functions derived from the
React handlers and the AI interval effect.  Randomness (JS Math.random) is
modelled by an oracle stream of natural numbers: each call of the source
helper randomInt consumes one draw, and quantifying over the stream covers
exactly the set of values the source can draw.  Mutable grid writes are
modelled in an Except monad so that an out-of-range index is an error, which
lets us state and prove that the generator never raises.
-/

namespace WordGame

/-- A board coordinate (row, column), as in the source `[number, number]`. -/
abbrev Pos := Int × Int

/-- A grid cell during generation: `none` models the empty string sentinel. -/
abbrev Cell := Option Char

/-- The grid during generation, a list of rows. -/
abbrev Grid := List (List Cell)

/-- Who found a word: source values "player" and "ai". -/
inductive Claimant where
  | player
  | ai
deriving DecidableEq, Repr

/-- Source interface WordData: the word text, who found it (null initially),
and the covered cells in order. -/
structure WordData where
  word : List Char
  foundBy : Option Claimant
  positions : List Pos
deriving DecidableEq, Repr

/-- Model of the source helper
`randomInt(a, b) = a + Math.floor(Math.random() * (b - a + 1))`.
The extra argument `n` is the oracle draw: for `a ≤ b`, as `n` ranges over
the naturals the result ranges over exactly `[a, b]`, the possible outputs
of the source call; for `b < a` (reachable when a word is longer than the
grid) the JS expression yields a value in `[b+1, a]`, matched here. -/
def randomInt (a b : Int) (n : Nat) : Int :=
  if a ≤ b then a + (n : Int) % (b - a + 1) else b + 1 + (n : Int) % (a - b)

/-- The eight placement directions, in source order. -/
def DIRECTIONS : List (Int × Int) :=
  [(0, 1), (1, 0), (0, -1), (-1, 0), (1, 1), (-1, -1), (1, -1), (-1, 1)]

/-- The upper bound the source passes to randomInt when drawing an anchor
coordinate: `size - (d === 1 ? len : 1) - (d === -1 ? len : 0)` where `d`
is the direction component for that axis. -/
def anchorHi (size len : Nat) (d : Int) : Int :=
  (size : Int) - (if d = 1 then (len : Int) else 1) - (if d = -1 then (len : Int) else 0)

/-- Is a position on the size-by-size board?  The bound checks of the source
validity loop: `r < 0 || r >= size || c < 0 || c >= size` negated. -/
def inGrid (size : Nat) (p : Pos) : Prop :=
  0 ≤ p.1 ∧ p.1 < (size : Int) ∧ 0 ≤ p.2 ∧ p.2 < (size : Int)

instance (size : Nat) (p : Pos) : Decidable (inGrid size p) := by
  unfold inGrid; infer_instance

/-- Read a cell.  The source only reads `grid[r][c]` after its bound checks
succeed; outside the board this total model returns the empty sentinel. -/
def gridGet (g : Grid) (p : Pos) : Cell :=
  if 0 ≤ p.1 ∧ 0 ≤ p.2 then (g.getD p.1.toNat []).getD p.2.toNat none else none

/-- Write a cell, `grid[r][c] = ch`.  An out-of-range index is an error:
this is strictly more error-prone than JS (which throws only when the row is
missing), so proving the generator never errors is a sound strengthening of
"never raises". -/
def gridSet (g : Grid) (p : Pos) (ch : Char) : Except String Grid :=
  if 0 ≤ p.1 ∧ p.1.toNat < g.length ∧ 0 ≤ p.2 ∧ p.2.toNat < (g.getD p.1.toNat []).length then
    .ok (g.set p.1.toNat ((g.getD p.1.toNat []).set p.2.toNat (some ch)))
  else
    .error "cell index out of range"

/-- The validity loop of one placement attempt (source lines 143-157): walk
the word from the anchor in direction (dr, dc); each cell must be on the
board and empty or already equal to the needed letter.  Returns the recorded
cell sequence on success, `none` on the first failing cell. -/
def scanWord (size : Nat) (g : Grid) (row col dr dc : Int) :
    List Char → Nat → Option (List Pos)
  | [], _ => some []
  | ch :: rest, i =>
    let p : Pos := (row + dr * (i : Int), col + dc * (i : Int))
    if inGrid size p ∧ (gridGet g p = none ∨ gridGet g p = some ch) then
      match scanWord size g row col dr dc rest (i + 1) with
      | some ps => some (p :: ps)
      | none => none
    else none

/-- The write loop of a successful attempt (source lines 159-162): write each
letter of the word at the matching recorded position.  A missing position is
an error (JS would throw destructuring `undefined`). -/
def writeWord : Grid → List Char → List Pos → Except String Grid
  | g, [], _ => .ok g
  | _, _ :: _, [] => .error "missing position"
  | g, ch :: rest, p :: ps =>
    match gridSet g p ch with
    | .ok g' => writeWord g' rest ps
    | .error e => .error e

/-- One try of the per-word while loop (source lines 132-157): draw a
direction and an anchor from the oracle at counter `k`, then run the
validity scan. -/
def attempt (size : Nat) (rho : Nat → Nat) (k : Nat) (g : Grid) (word : List Char) :
    Option (List Pos) :=
  let dir := DIRECTIONS.getD (randomInt 0 7 (rho k)).toNat (0, 1)
  let row := randomInt 0 (anchorHi size word.length dir.1) (rho (k + 1))
  let col := randomInt 0 (anchorHi size word.length dir.2) (rho (k + 2))
  scanWord size g row col dir.1 dir.2 word 0

/-- The per-word attempt loop (source lines 131-167): up to `fuel` (100)
tries; the first valid attempt is written and returned. -/
def placeWord (size : Nat) (rho : Nat → Nat) :
    Nat → Nat → Grid → List Char → Except String (Grid × Option (List Pos) × Nat)
  | 0, k, g, _ => .ok (g, none, k)
  | fuel + 1, k, g, word =>
    match attempt size rho k g word with
    | some ps =>
      match writeWord g word ps with
      | .ok g' => .ok (g', some ps, k + 3)
      | .error e => .error e
    | none => placeWord size rho fuel (k + 3) g word

/-- The word loop of the generator (source lines 127-168): each word is
uppercased and given up to 100 attempts; successes are recorded as WordData
with `foundBy = none`, failures are silently dropped. -/
def placeWords (size : Nat) (rho : Nat → Nat) :
    List (List Char) → Grid → Nat → Except String (Grid × List WordData × Nat)
  | [], g, k => .ok (g, [], k)
  | w :: ws, g, k =>
    let word := w.map Char.toUpper
    match placeWord size rho 100 k g word with
    | .error e => .error e
    | .ok (g', res, k') =>
      match placeWords size rho ws g' k' with
      | .error e => .error e
      | .ok (g'', wds, k'') =>
        match res with
        | some ps => .ok (g'', ⟨word, none, ps⟩ :: wds, k'')
        | none => .ok (g'', wds, k'')

/-- The random fill of one row (source lines 171-177): every still-empty
cell gets `String.fromCharCode(65 + randomInt(0, 25))`; occupied cells are
kept and consume no draw. -/
def fillRow (rho : Nat → Nat) : List Cell → Nat → List Char × Nat
  | [], k => ([], k)
  | some ch :: rest, k =>
    let r := fillRow rho rest k
    (ch :: r.1, r.2)
  | none :: rest, k =>
    let ch := Char.ofNat (65 + (randomInt 0 25 (rho k)).toNat)
    let r := fillRow rho rest (k + 1)
    (ch :: r.1, r.2)

/-- Random fill of the whole grid, row by row. -/
def fillGrid (rho : Nat → Nat) : Grid → Nat → List (List Char) × Nat
  | [], k => ([], k)
  | row :: rest, k =>
    let r := fillRow rho row k
    let rs := fillGrid rho rest r.2
    (r.1 :: rs.1, rs.2)

/-- The full generator `generateGrid(size, words)` (source lines 117-179):
start from a size-by-size empty grid, place the words, then fill the
remaining cells with random letters. -/
def generateGrid (size : Nat) (words : List (List Char)) (rho : Nat → Nat) :
    Except String (List (List Char) × List WordData) :=
  match placeWords size rho words (List.replicate size (List.replicate size none)) 0 with
  | .ok (g, wds, k) => .ok ((fillGrid rho g k).1, wds)
  | .error e => .error e

/-- Read a letter of the finished grid along a recorded position. -/
def charAt (grid : List (List Char)) (p : Pos) : Char :=
  (grid.getD p.1.toNat []).getD p.2.toNat '?'

/-! ### Selection resolver -/

/-- Source helper `getLine(start, end)` (lines 182-208): the straight line
between an anchor and a hovered cell, or `none` when the pair is not
horizontal, vertical or 45-degree diagonal. -/
def getLine (s e : Pos) : Option (List Pos) :=
  let dr := e.1 - s.1
  let dc := e.2 - s.2
  let len := max dr.natAbs dc.natAbs
  if (dr = 0 ∧ dc ≠ 0) ∨ (dc = 0 ∧ dr ≠ 0) ∨ dr.natAbs = dc.natAbs then
    let stepR : Int := if dr = 0 then 0 else dr / (dr.natAbs : Int)
    let stepC : Int := if dc = 0 then 0 else dc / (dc.natAbs : Int)
    some ((List.range (len + 1)).map fun (i : Nat) =>
      (s.1 + stepR * (i : Int), s.2 + stepC * (i : Int)))
  else none

/-- Source helper `arraysEqual`: positional equality of cell sequences. -/
def arraysEqual (a b : List Pos) : Bool :=
  decide (a = b)

/-- Source `getSelectedWord(positions)` (lines 311-324): the first word of
the list that is unclaimed and whose cells equal the selection forward or
exactly reversed; `null` (here `none`) when there is no match. -/
def getSelectedWord (wordList : List WordData) (positions : List Pos) : Option WordData :=
  wordList.find? fun wd =>
    decide (wd.foundBy = none) &&
      (arraysEqual wd.positions positions || arraysEqual wd.positions.reverse positions)

/-! ### Session state machine

The React component state relevant to the claims, and the transition
functions derived from the handlers, the AI interval callback and the
game-end effect.  Timer callbacks (the 400ms / 700ms claim animations and
the 1200ms completion timeout) are modelled as pending items fired by
separate events, since they read state captured at scheduling time.
Cosmetic fields (aiHighlight, aiThinking, scoreboard) are omitted. -/

/-- The source gameState values. -/
inductive Phase where
  | setup
  | playing
  | completed
  | animatingAI
  | animatingPlayer
deriving DecidableEq, Repr

/-- An entry of the foundWords log: `{word, by, positions}` in the source
(the claimant field is named `by` there, a Lean keyword). -/
structure Found where
  word : List Char
  claimant : Claimant
  positions : List Pos
deriving DecidableEq, Repr

/-- A scheduled claim animation: the setTimeout closure of
handleCellMouseUp (player, 400ms) or of the AI interval callback (ai,
700ms), capturing the word and its cells. -/
structure Pending where
  word : List Char
  claimant : Claimant
  positions : List Pos
deriving DecidableEq, Repr

/-- The component state relevant to the claims. -/
structure GameState where
  wordList : List WordData
  foundWords : List Found
  playerScore : Nat
  aiScore : Nat
  selected : List Pos
  gameState : Phase
  pendingClaim : Option Pending
  pendingComplete : Bool
deriving DecidableEq, Repr

/-- The state right after `startGame` (source lines 296-308) built a word
list: empty log, zero scores, empty selection, phase playing. -/
def initState (wd : List WordData) : GameState :=
  ⟨wd, [], 0, 0, [], .playing, none, false⟩

/-- The wordList update applied when `word` is claimed: the source map
`wl.map (w => w.word === word ? { ...w, foundBy } : w)`. -/
def claimWord (wl : List WordData) (w : List Char) (cl : Claimant) : List WordData :=
  wl.map fun x => if x.word = w then { x with foundBy := some cl } else x

/-- The AI candidate set: `wordList.filter (w => !w.foundBy)` (line 402). -/
def aiCandidates (wl : List WordData) : List WordData :=
  wl.filter fun w => decide (w.foundBy = none)

/-- The length of `wordList.filter (w => !w.foundBy)` as used by the completion
checks (lines 435 and 454). -/
def unfoundCount (wl : List WordData) : Nat :=
  (aiCandidates wl).length

/-- The head of `[...candidates].sort((a,b) => b.word.length - a.word.length)`:
with a stable sort this is the first candidate of maximal word length. -/
def firstLongest : List WordData → Option WordData
  | [] => none
  | w :: ws =>
    match firstLongest ws with
    | none => some w
    | some m => if m.word.length > w.word.length then some m else some w

/-- The events that drive the session: pointer primitives, the AI interval
tick, and the firing of the scheduled timeouts.  `skillPass` abstracts
`Math.random() < conf.aiSkill`, `preferLong` abstracts
`difficulty === "Hard" && Math.random() < 0.6`, and `pick` is the oracle
draw for the uniform candidate choice. -/
inductive Event where
  | mouseDown (r c : Int)
  | mouseEnter (r c : Int)
  | mouseUp
  | mouseLeave
  | aiTick (skillPass preferLong : Bool) (pick : Nat)
  | playerClaimFire
  | aiClaimFire
  | completeFire
deriving DecidableEq, Repr

/-- Source `handleCellMouseDown` (lines 327-330). -/
def applyMouseDown (r c : Int) (s : GameState) : GameState :=
  if s.gameState = .playing then { s with selected := [(r, c)] } else s

/-- Source `handleCellMouseEnter` (lines 332-338): extend from the anchor
`selected[0]`; an invalid (non-straight) pair leaves the selection as is. -/
def applyMouseEnter (r c : Int) (s : GameState) : GameState :=
  if s.gameState = .playing ∧ s.selected ≠ [] then
    match getLine (s.selected.headD (0, 0)) (r, c) with
    | some line => { s with selected := line }
    | none => s
  else s

/-- Source `handleCellMouseUp` (lines 340-366): clear a short or unmatched
selection; on a match, enter the animatingPlayer phase and schedule the
claim timeout (the selection itself is cleared only when it fires). -/
def applyMouseUp (s : GameState) : GameState :=
  if s.gameState ≠ .playing ∨ s.selected.length < 2 then
    { s with selected := [] }
  else
    match getSelectedWord s.wordList s.selected with
    | some wd =>
      { s with gameState := .animatingPlayer,
               pendingClaim := some ⟨wd.word, .player, wd.positions⟩ }
    | none => { s with selected := [] }

/-- The grid container mouse-leave / touch-cancel handler: `setSelected([])`. -/
def applyMouseLeave (s : GameState) : GameState :=
  { s with selected := [] }

/-- A firing claim timeout (source lines 349-362 for the player, 416-430
for the AI): append to foundWords, mark the word in wordList, bump the
claimant score, return to playing — then the game-end effect (lines
452-459), which runs on the foundWords change, completes the game when no
unfound word remains. -/
def claimResult (cl : Claimant) (pc : Pending) (s : GameState) : GameState :=
  { s with
    wordList := claimWord s.wordList pc.word cl,
    foundWords := s.foundWords ++ [⟨pc.word, cl, pc.positions⟩],
    playerScore := if cl = .player then s.playerScore + 1 else s.playerScore,
    aiScore := if cl = .ai then s.aiScore + 1 else s.aiScore,
    selected := if cl = .player then [] else s.selected,
    gameState := .playing,
    pendingClaim := none }

def applyClaimFire (cl : Claimant) (s : GameState) : GameState :=
  match s.pendingClaim with
  | some pc =>
    if pc.claimant = cl then
      if unfoundCount (claimWord s.wordList pc.word cl) = 0 then
        { claimResult cl pc s with gameState := .completed }
      else claimResult cl pc s
    else s
  | none => s

/-- The candidate choice of the AI tick (source lines 405-412): on Hard,
with the secondary draw (`preferLong`), the first longest candidate (the
head of the stable descending sort); otherwise a uniform draw. -/
def aiChoose (preferLong : Bool) (pick : Nat) (candidates : List WordData) : WordData :=
  if preferLong then (firstLongest candidates).getD ⟨[], none, []⟩
  else candidates.getD (randomInt 0 ((candidates.length : Int) - 1) pick).toNat ⟨[], none, []⟩

/-- The claim attempt of one AI tick (source lines 401-431): with the skill
draw below threshold and a nonempty candidate set, schedule the chosen
claim and enter the animatingAI phase. -/
def aiAttempt (skillPass preferLong : Bool) (pick : Nat) (s : GameState) : GameState :=
  if skillPass then
    if aiCandidates s.wordList ≠ [] then
      let chosen := aiChoose preferLong pick (aiCandidates s.wordList)
      { s with gameState := .animatingAI,
               pendingClaim := some ⟨chosen.word, .ai, chosen.positions⟩ }
    else s
  else s

/-- One AI interval tick (source lines 398-443), computed from the state
captured when the effect subscribed: the claim attempt, then the completion
check `unfound === 0 || foundWords.length + 1 >= wordList.length` — on the
captured, pre-claim state — which schedules the 1200ms completion
timeout. -/
def applyAiTick (skillPass preferLong : Bool) (pick : Nat) (s : GameState) : GameState :=
  if s.gameState = .playing then
    if unfoundCount s.wordList = 0 ∨ s.foundWords.length + 1 ≥ s.wordList.length then
      { aiAttempt skillPass preferLong pick s with pendingComplete := true }
    else aiAttempt skillPass preferLong pick s
  else s

/-- The 1200ms completion timeout firing: `setGameState("completed")`. -/
def applyCompleteFire (s : GameState) : GameState :=
  if s.pendingComplete then { s with gameState := .completed, pendingComplete := false } else s

/-- Event dispatch. -/
def applyEvent : Event → GameState → GameState
  | .mouseDown r c, s => applyMouseDown r c s
  | .mouseEnter r c, s => applyMouseEnter r c s
  | .mouseUp, s => applyMouseUp s
  | .mouseLeave, s => applyMouseLeave s
  | .aiTick sp pl pk, s => applyAiTick sp pl pk s
  | .playerClaimFire, s => applyClaimFire .player s
  | .aiClaimFire, s => applyClaimFire .ai s
  | .completeFire, s => applyCompleteFire s

/-- States of one session, from game start through any event sequence. -/
inductive Reachable (wd : List WordData) : GameState → Prop
  | init : Reachable wd (initState wd)
  | step (e : Event) {s : GameState} : Reachable wd s → Reachable wd (applyEvent e s)

/-! ### Lemmas about getLine -/

lemma sign_div_natAbs {d : Int} (hd : d ≠ 0) :
    (d / (d.natAbs : Int)).natAbs = 1 ∧ d / (d.natAbs : Int) * (d.natAbs : Int) = d := by
  have hdvd : ((d.natAbs : Int)) ∣ d := Int.natAbs_dvd.mpr dvd_rfl
  have hmul : d / (d.natAbs : Int) * (d.natAbs : Int) = d := Int.ediv_mul_cancel hdvd
  have habs : (d / (d.natAbs : Int)).natAbs * d.natAbs = d.natAbs := by
    conv_rhs => rw [← hmul]
    rw [Int.natAbs_mul, Int.natAbs_ofNat]
  have hne : d.natAbs ≠ 0 := Int.natAbs_ne_zero.mpr hd
  refine ⟨?_, hmul⟩
  have := Nat.eq_of_mul_eq_mul_right (Nat.pos_of_ne_zero hne)
    (habs.trans (one_mul d.natAbs).symm)
  exact this

lemma map_range_head? (f : Nat → Pos) (n : Nat) :
    ((List.range (n + 1)).map f).head? = some (f 0) := by
  rw [List.range_succ_eq_map]
  simp

lemma map_range_getLast? (f : Nat → Pos) (n : Nat) :
    ((List.range (n + 1)).map f).getLast? = some (f n) := by
  rw [List.range_succ, List.map_append]
  simp

lemma map_range_get? (f : Nat → Pos) (n i : Nat) (h : i < n) :
    ((List.range n).map f).get? i = some (f i) := by
  rw [List.get?_map, List.get?_range h]
  rfl

/-- Structural description of a successful getLine: the returned list
enumerates `start + step * i` for `i = 0..len`, with a unit step vector
that is nonzero when the list has at least two cells and that reaches the
endpoint after `len` steps. -/
lemma getLine_spec {s e : Pos} {l : List Pos} (h : getLine s e = some l) :
    ∃ sR sC : Int,
      l = (List.range (max (e.1 - s.1).natAbs (e.2 - s.2).natAbs + 1)).map
            (fun (i : Nat) => (s.1 + sR * (i : Int), s.2 + sC * (i : Int))) ∧
      sR.natAbs ≤ 1 ∧ sC.natAbs ≤ 1 ∧
      (2 ≤ l.length → ¬(sR = 0 ∧ sC = 0)) ∧
      sR * (max (e.1 - s.1).natAbs (e.2 - s.2).natAbs : Int) = e.1 - s.1 ∧
      sC * (max (e.1 - s.1).natAbs (e.2 - s.2).natAbs : Int) = e.2 - s.2 := by
  simp only [getLine] at h
  set dr := e.1 - s.1 with hdr
  set dc := e.2 - s.2 with hdc
  split at h
  case isFalse => exact absurd h (by simp)
  case isTrue hcond =>
    refine ⟨if dr = 0 then 0 else dr / (dr.natAbs : Int),
            if dc = 0 then 0 else dc / (dc.natAbs : Int), ?_, ?_, ?_, ?_, ?_, ?_⟩
    · exact (Option.some_injective _ h).symm
    · split
      · simp
      · next hne => exact le_of_eq (sign_div_natAbs hne).1
    · split
      · simp
      · next hne => exact le_of_eq (sign_div_natAbs hne).1
    · intro hlen hzero
      obtain ⟨h1, h2⟩ := hzero
      have hdr0 : dr = 0 := by
        by_contra hne
        rw [if_neg hne] at h1
        have := (sign_div_natAbs hne).1
        rw [h1] at this
        simp at this
      have hdc0 : dc = 0 := by
        by_contra hne
        rw [if_neg hne] at h2
        have := (sign_div_natAbs hne).1
        rw [h2] at this
        simp at this
      have : l.length = 1 := by
        have := congrArg List.length (Option.some_injective _ h).symm
        simpa [hdr0, hdc0] using this
      omega
    · by_cases hne : dr = 0
      · simp [hne]
      · rw [if_neg hne]
        have hlen : max dr.natAbs dc.natAbs = dr.natAbs := by
          rcases hcond with ⟨h1, _⟩ | ⟨h1, _⟩ | h1
          · exact absurd h1 hne
          · simp [h1]
          · rw [h1]; exact max_self _
        rw [← Nat.cast_max, hlen]
        exact (sign_div_natAbs hne).2
    · by_cases hne : dc = 0
      · simp [hne]
      · rw [if_neg hne]
        have hlen : max dr.natAbs dc.natAbs = dc.natAbs := by
          rcases hcond with ⟨h1, _⟩ | ⟨h1, _⟩ | h1
          · simp [h1]
          · exact absurd h1 hne
          · rw [h1]; exact max_self _
        rw [← Nat.cast_max, hlen]
        exact (sign_div_natAbs hne).2

/-- The straightness test of getLine, rephrased without the redundant
nonzero guards: for `dr = dc = 0` the third disjunct holds trivially. -/
lemma getLine_cond_iff (dr dc : Int) :
    ((dr = 0 ∧ dc ≠ 0) ∨ (dc = 0 ∧ dr ≠ 0) ∨ dr.natAbs = dc.natAbs) ↔
      (dr = 0 ∨ dc = 0 ∨ dr.natAbs = dc.natAbs) := by
  constructor
  · rintro (⟨h, _⟩ | ⟨h, _⟩ | h)
    · exact Or.inl h
    · exact Or.inr (Or.inl h)
    · exact Or.inr (Or.inr h)
  · rintro (h | h | h)
    · by_cases hc : dc = 0
      · exact Or.inr (Or.inr (by rw [h, hc]))
      · exact Or.inl ⟨h, hc⟩
    · by_cases hr : dr = 0
      · exact Or.inr (Or.inr (by rw [h, hr]))
      · exact Or.inr (Or.inl ⟨h, hr⟩)
    · exact Or.inr (Or.inr h)

/-- C5: extendSelection (getLine) returns a sequence iff the deltas are
straight (zero row delta, zero column delta, or equal absolute deltas); the
returned sequence is the inclusive unit-step lattice segment from the anchor
to the candidate, of length `max |dr| |dc| + 1`; and a non-straight hover
leaves the in-progress selection unchanged. -/
theorem claim5_extend_selection (s e : Pos) :
    ((getLine s e).isSome ↔
      (e.1 - s.1 = 0 ∨ e.2 - s.2 = 0 ∨ (e.1 - s.1).natAbs = (e.2 - s.2).natAbs))
    ∧ (∀ l, getLine s e = some l →
        l.length = max (e.1 - s.1).natAbs (e.2 - s.2).natAbs + 1 ∧
        l.head? = some s ∧ l.getLast? = some e ∧
        ∃ sR sC : Int, sR.natAbs ≤ 1 ∧ sC.natAbs ≤ 1 ∧
          ∀ i p q, l.get? i = some p → l.get? (i + 1) = some q →
            q = (p.1 + sR, p.2 + sC))
    ∧ (∀ (st : GameState) (r c : Int),
        getLine (st.selected.headD (0, 0)) (r, c) = none →
        applyEvent (.mouseEnter r c) st = st) := by
  refine ⟨?_, ?_, ?_⟩
  · simp only [getLine]
    split
    case isTrue hc =>
      simpa using (getLine_cond_iff _ _).mp hc
    case isFalse hc =>
      simpa using fun h => hc ((getLine_cond_iff _ _).mpr h)
  · intro l hl
    obtain ⟨sR, sC, hform, _, _, _, hR, hC⟩ := getLine_spec hl
    set len := max (e.1 - s.1).natAbs (e.2 - s.2).natAbs with hlen
    refine ⟨by simp [hform], ?_, ?_, sR, sC, by assumption, by assumption, ?_⟩
    · rw [hform, map_range_head?]
      simp
    · rw [hform, map_range_getLast?]
      have h1 : s.1 + sR * (len : Int) = e.1 := by
        rw [hlen, Nat.cast_max, hR]; ring
      have h2 : s.2 + sC * (len : Int) = e.2 := by
        rw [hlen, Nat.cast_max, hC]; ring
      rw [h1, h2]
    · intro i p q hp hq
      obtain ⟨hlt, -⟩ := List.get?_eq_some.mp hq
      have hlth : l.length = len + 1 := by simp [hform]
      rw [hlth] at hlt
      rw [hform, map_range_get? _ _ _ (by omega)] at hp
      rw [hform, map_range_get? _ _ _ (by omega)] at hq
      have hp' := Option.some_injective _ hp
      have hq' := Option.some_injective _ hq
      rw [← hp', ← hq']
      simp only [Prod.mk.injEq]
      push_cast
      constructor <;> ring
  · intro st r c hnone
    show applyMouseEnter r c st = st
    unfold applyMouseEnter
    split
    · rw [hnone]
    · rfl

/-- Witness for C5 at the concrete anchor (0,0) and candidate (2,2), plus a
non-straight hover at (1,2) from an empty selection. -/
theorem claim5_extend_selection_witness :
    (getLine ((0, 0) : Pos) ((2, 2) : Pos)).isSome ∧
    ([((0, 0) : Pos), (1, 1), (2, 2)]).getLast? = some ((2, 2) : Pos) ∧
    applyEvent (.mouseEnter 1 2) (initState []) = initState [] :=
  ⟨(claim5_extend_selection (0, 0) (2, 2)).1.mpr (Or.inr (Or.inr rfl)),
   ((claim5_extend_selection (0, 0) (2, 2)).2.1 _ (by decide)).2.2.1,
   (claim5_extend_selection (0, 0) (2, 2)).2.2 (initState []) 1 2 (by decide)⟩

/-- C6: resolution is symmetric in the drag direction: a selection and
its exact reverse resolve identically; a resolved word is a member of the
list, unclaimed, and covers the selection forward or exactly reversed; and
whenever such an unclaimed placement exists, resolution finds one. -/
theorem claim6_resolve_symmetry (wl : List WordData) (sel : List Pos) :
    getSelectedWord wl sel = getSelectedWord wl sel.reverse
    ∧ (∀ wd, getSelectedWord wl sel = some wd →
        wd ∈ wl ∧ wd.foundBy = none ∧ (wd.positions = sel ∨ wd.positions.reverse = sel))
    ∧ ((∃ wd ∈ wl, wd.foundBy = none ∧ (wd.positions = sel ∨ wd.positions.reverse = sel)) →
        (getSelectedWord wl sel).isSome) := by
  refine ⟨?_, ?_, ?_⟩
  · simp only [getSelectedWord]
    congr 1
    funext wd
    simp only [arraysEqual]
    congr 1
    have h1 : decide (wd.positions = sel.reverse) = decide (wd.positions.reverse = sel) := by
      apply decide_eq_decide.mpr
      rw [List.reverse_eq_iff]
    have h2 : decide (wd.positions.reverse = sel.reverse) = decide (wd.positions = sel) := by
      apply decide_eq_decide.mpr
      exact List.reverse_inj
    rw [h1, h2, Bool.or_comm]
  · intro wd h
    have hmem := List.mem_of_find?_eq_some h
    have hpred := List.find?_some h
    simp only [arraysEqual, Bool.and_eq_true, Bool.or_eq_true, decide_eq_true_eq] at hpred
    exact ⟨hmem, hpred.1, hpred.2⟩
  · intro ⟨wd, hmem, hfb, hpos⟩
    rw [getSelectedWord, List.find?_isSome]
    refine ⟨wd, hmem, ?_⟩
    simp only [arraysEqual, Bool.and_eq_true, Bool.or_eq_true, decide_eq_true_eq]
    exact ⟨hfb, hpos⟩

/-- Witness for C6 on a one-word list whose cells are the selection. -/
theorem claim6_resolve_symmetry_witness :
    getSelectedWord [⟨['A', 'B'], none, [(0, 0), (0, 1)]⟩] [(0, 0), (0, 1)] =
      getSelectedWord [⟨['A', 'B'], none, [(0, 0), (0, 1)]⟩] ([(0, 0), (0, 1)] : List Pos).reverse
    ∧ (⟨['A', 'B'], none, [(0, 0), (0, 1)]⟩ : WordData) ∈
        [(⟨['A', 'B'], none, [(0, 0), (0, 1)]⟩ : WordData)]
    ∧ (getSelectedWord [⟨['A', 'B'], none, [(0, 0), (0, 1)]⟩] [(0, 0), (0, 1)]).isSome :=
  ⟨(claim6_resolve_symmetry _ _).1,
   ((claim6_resolve_symmetry [⟨['A', 'B'], none, [(0, 0), (0, 1)]⟩] [(0, 0), (0, 1)]).2.1 _
      (by decide)).1,
   (claim6_resolve_symmetry [⟨['A', 'B'], none, [(0, 0), (0, 1)]⟩] [(0, 0), (0, 1)]).2.2
      ⟨_, List.mem_singleton_self _, rfl, Or.inl rfl⟩⟩

/-- C8: a pointer release whose selection is shorter than two cells or
matches no unclaimed placement only clears the selection: word statuses, the
found-words log and both scores are untouched. -/
theorem claim8_unmatched_release_clears_only (s : GameState)
    (h : s.selected.length < 2 ∨ getSelectedWord s.wordList s.selected = none) :
    applyEvent .mouseUp s = { s with selected := [] } := by
  show applyMouseUp s = _
  unfold applyMouseUp
  rcases h with h | h
  · rw [if_pos (Or.inr h)]
  · by_cases hcond : s.gameState ≠ .playing ∨ s.selected.length < 2
    · rw [if_pos hcond]
    · rw [if_neg hcond, h]

/-- Witness for C8 at the freshly started empty session. -/
theorem claim8_unmatched_release_clears_only_witness :
    applyEvent .mouseUp (initState []) = { initState [] with selected := [] } :=
  claim8_unmatched_release_clears_only (initState []) (Or.inl (by decide))

/-! ### Lemmas about the generator attempt scan -/

/-- Each draw `randomInt 0 hi n` with `0 ≤ hi` lies in `[0, hi]`. -/
lemma randomInt_bounds (b : Int) (h : 0 ≤ b) (n : Nat) :
    0 ≤ randomInt 0 b n ∧ randomInt 0 b n ≤ b := by
  unfold randomInt
  rw [if_pos h]
  have h1 : 0 ≤ (n : Int) % (b - 0 + 1) := Int.emod_nonneg _ (by omega)
  have h2 : (n : Int) % (b - 0 + 1) < b - 0 + 1 := Int.emod_lt_of_pos _ (by omega)
  constructor <;> omega

/-- The direction drawn by an attempt is never the zero vector. -/
lemma dir_getD_ne_zero (n : Nat) :
    ¬((DIRECTIONS.getD n (0, 1)).1 = 0 ∧ (DIRECTIONS.getD n (0, 1)).2 = 0) := by
  rcases n with _ | _ | _ | _ | _ | _ | _ | _ | n
  iterate 8 decide
  rw [List.getD_eq_default]
  · decide
  · show DIRECTIONS.length ≤ n + 8
    simp [DIRECTIONS]

/-- A successful validity scan certifies every cell: it is on the board and
empty or already carries the letter the word needs there. -/
lemma scanWord_valid {size : Nat} {g : Grid} {row col dr dc : Int} (w : List Char) :
    ∀ (i : Nat) (ps : List Pos), scanWord size g row col dr dc w i = some ps →
      List.Forall₂
        (fun ch p => inGrid size p ∧ (gridGet g p = none ∨ gridGet g p = some ch)) w ps := by
  induction w with
  | nil =>
    intro i ps h
    simp only [scanWord] at h
    injection h with h
    rw [← h]
    exact List.Forall₂.nil
  | cons ch rest ih =>
    intro i ps h
    simp only [scanWord] at h
    split at h
    case isTrue hcell =>
      cases hrec : scanWord size g row col dr dc rest (i + 1) with
      | none => rw [hrec] at h; cases h
      | some ps' =>
        rw [hrec] at h
        injection h with h
        rw [← h]
        exact List.Forall₂.cons ⟨hcell.1, hcell.2⟩ (ih _ _ hrec)
    case isFalse => cases h

/-- A successful validity scan records exactly the arithmetic line
`anchor + dir * i` for `i = 0 .. len-1`. -/
lemma scanWord_positions {size : Nat} {g : Grid} {row col dr dc : Int} (w : List Char) :
    ∀ (i : Nat) (ps : List Pos), scanWord size g row col dr dc w i = some ps →
      ps = (List.range w.length).map
        (fun (j : Nat) => (row + dr * ((i + j : Nat) : Int), col + dc * ((i + j : Nat) : Int))) := by
  induction w with
  | nil =>
    intro i ps h
    simp only [scanWord] at h
    injection h with h
    rw [← h]
    simp
  | cons ch rest ih =>
    intro i ps h
    simp only [scanWord] at h
    split at h
    case isTrue hcell =>
      cases hrec : scanWord size g row col dr dc rest (i + 1) with
      | none => rw [hrec] at h; cases h
      | some ps' =>
        rw [hrec] at h
        injection h with h
        rw [← h, ih _ _ hrec]
        rw [List.length_cons, List.range_succ_eq_map, List.map_cons, List.map_map]
        refine congrArg₂ List.cons (by simp) ?_
        apply List.map_congr_left
        intro j _
        simp only [Function.comp_apply, Nat.succ_eq_add_one]
        have hj' : i + 1 + j = i + (j + 1) := by omega
        rw [hj']
    case isFalse => cases h

/-- Right-hand membership extraction from a pointwise relation. -/
lemma forall₂_right_mem {α β : Type} {R : α → β → Prop} :
    ∀ {l₁ : List α} {l₂ : List β}, List.Forall₂ R l₁ l₂ → ∀ b ∈ l₂, ∃ a, R a b := by
  intro l₁ l₂ h
  induction h with
  | nil => intro b hb; cases hb
  | cons hR _ ih =>
    intro b hb
    rcases List.mem_cons.mp hb with rfl | hb'
    · exact ⟨_, hR⟩
    · exact ih _ hb'

/-- The recorded cells of a successful scan are pairwise distinct, because
the direction vector is nonzero. -/
lemma scanWord_nodup {size : Nat} {g : Grid} {row col dr dc : Int}
    (hdir : ¬(dr = 0 ∧ dc = 0)) {w : List Char} {i : Nat} {ps : List Pos}
    (h : scanWord size g row col dr dc w i = some ps) : ps.Nodup := by
  rw [scanWord_positions w i ps h]
  apply List.Nodup.map _ (List.nodup_range _)
  intro j₁ j₂ heq
  rw [Prod.mk.injEq] at heq
  obtain ⟨h1, h2⟩ := heq
  rcases not_and_or.mp hdir with hd | hd
  · have : ((i + j₁ : Nat) : Int) = ((i + j₂ : Nat) : Int) :=
      mul_left_cancel₀ hd (by omega)
    omega
  · have : ((i + j₁ : Nat) : Int) = ((i + j₂ : Nat) : Int) :=
      mul_left_cancel₀ hd (by omega)
    omega

/-- Counterexample to C3 as stated: on a 4-by-4 grid, for a word of length
2 and the drawn direction `(-1, 0)` (index 3, "up"), the anchor row 0 is
drawable — `randomInt(0, size - 1 - len)` can return 0 — yet the cell at
step 1 has row `0 + (-1)*1 = -1`, off the grid. -/
theorem claim3_counterexample :
    DIRECTIONS.getD 3 (0, 1) = (-1, 0) ∧
    randomInt 0 (anchorHi 4 2 (-1)) 0 = 0 ∧
    ¬ inGrid 4 ((0 : Int) + (-1) * (1 : Int), (0 : Int) + 0 * (1 : Int)) := by
  decide

/-- C3 amended: for the drawn directions with no negative component
(right, down, down-right) every drawable anchor keeps the whole word
on-grid; for the others the anchor range can place cells off-grid, but the
validity scan certifies on-grid cells, so such attempts are rejected and
never written. -/
theorem claim3_anchor_fit_amended (size L : Nat) (hL : 1 ≤ L) (hsize : L ≤ size)
    (dr dc : Int) (hdir : (dr, dc) ∈ DIRECTIONS) (hdr : 0 ≤ dr) (hdc : 0 ≤ dc)
    (n m i : Nat) (hi : i < L) :
    inGrid size (randomInt 0 (anchorHi size L dr) n + dr * (i : Int),
                 randomInt 0 (anchorHi size L dc) m + dc * (i : Int))
    ∧ ∀ (g : Grid) (w : List Char) (row col dr' dc' : Int) (ps : List Pos),
        scanWord size g row col dr' dc' w 0 = some ps → ∀ p ∈ ps, inGrid size p := by
  constructor
  · have hcomp : ∀ (d : Int), d = 0 ∨ d = 1 → ∀ (x : Nat),
        0 ≤ randomInt 0 (anchorHi size L d) x + d * (i : Int) ∧
        randomInt 0 (anchorHi size L d) x + d * (i : Int) < (size : Int) := by
      intro d hd x
      have hsize1 : 1 ≤ size := le_trans hL hsize
      rcases hd with rfl | rfl
      · have hhi : anchorHi size L 0 = (size : Int) - 1 := by
          simp [anchorHi]
        obtain ⟨h0, h1⟩ := randomInt_bounds (anchorHi size L 0) (by rw [hhi]; omega) x
        nth_rewrite 2 [hhi] at h1
        constructor <;> omega
      · have hhi : anchorHi size L 1 = (size : Int) - (L : Int) := by
          simp [anchorHi]
        obtain ⟨h0, h1⟩ := randomInt_bounds (anchorHi size L 1) (by rw [hhi]; omega) x
        nth_rewrite 2 [hhi] at h1
        have hiL : (i : Int) < (L : Int) := by exact_mod_cast hi
        constructor <;> omega
    have hdr' : dr = 0 ∨ dr = 1 := by
      simp only [DIRECTIONS, List.mem_cons, Prod.mk.injEq, List.not_mem_nil, or_false] at hdir
      rcases hdir with ⟨h1, h2⟩ | ⟨h1, h2⟩ | ⟨h1, h2⟩ | ⟨h1, h2⟩ | ⟨h1, h2⟩ | ⟨h1, h2⟩ |
        ⟨h1, h2⟩ | ⟨h1, h2⟩ <;> omega
    have hdc' : dc = 0 ∨ dc = 1 := by
      simp only [DIRECTIONS, List.mem_cons, Prod.mk.injEq, List.not_mem_nil, or_false] at hdir
      rcases hdir with ⟨h1, h2⟩ | ⟨h1, h2⟩ | ⟨h1, h2⟩ | ⟨h1, h2⟩ | ⟨h1, h2⟩ | ⟨h1, h2⟩ |
        ⟨h1, h2⟩ | ⟨h1, h2⟩ <;> omega
    obtain ⟨ha, hb⟩ := hcomp dr hdr' n
    obtain ⟨hc, hd⟩ := hcomp dc hdc' m
    exact ⟨ha, hb, hc, hd⟩
  · intro g w row col dr' dc' ps hscan p hp
    obtain ⟨ch, hch⟩ := forall₂_right_mem (scanWord_valid w 0 ps hscan) p hp
    exact hch.1

/-- Witness for the amended C3 at size 2, word length 2, direction (1,1). -/
theorem claim3_anchor_fit_amended_witness :
    inGrid 2 (randomInt 0 (anchorHi 2 2 1) 0 + 1 * (1 : Int),
              randomInt 0 (anchorHi 2 2 1) 0 + 1 * (1 : Int)) :=
  (claim3_anchor_fit_amended 2 2 (by decide) (by decide) 1 1 (by decide) (by decide)
    (by decide) 0 0 1 (by decide)).1

/-! ### Grid bookkeeping for the generator proofs -/

/-- The grid shape invariant: `size` rows of `size` cells each. -/
def gridDims (size : Nat) (g : Grid) : Prop :=
  g.length = size ∧ ∀ row ∈ g, row.length = size

/-- Every letter sitting in the grid is an uppercase letter. -/
def cellsAZ (g : Grid) : Prop :=
  ∀ row ∈ g, ∀ ch : Char, some ch ∈ row → 'A' ≤ ch ∧ ch ≤ 'Z'

lemma gridDims_replicate (size : Nat) :
    gridDims size (List.replicate size (List.replicate size none)) := by
  constructor
  · exact List.length_replicate _ _
  · intro row hr
    rw [List.eq_of_mem_replicate hr]
    exact List.length_replicate _ _

lemma cellsAZ_replicate (size : Nat) :
    cellsAZ (List.replicate size (List.replicate size none)) := by
  intro row hr ch hch
  rw [List.eq_of_mem_replicate hr] at hch
  cases List.eq_of_mem_replicate hch

lemma gridDims_row {size : Nat} {g : Grid} (hd : gridDims size g) {i : Nat}
    (hi : i < g.length) : (g.getD i []).length = size := by
  rw [List.getD_eq_get?, List.get?_eq_get hi]
  exact hd.2 _ (List.get_mem _ _ _)

lemma getD_mem {α : Type} {l : List α} {i : Nat} (hi : i < l.length) (d : α) :
    l.getD i d ∈ l := by
  rw [List.getD_eq_get?, List.get?_eq_get hi]
  exact List.get_mem _ _ _

lemma gridGet_pos {g : Grid} {p : Pos} (h1 : 0 ≤ p.1) (h2 : 0 ≤ p.2) :
    gridGet g p = (g.getD p.1.toNat []).getD p.2.toNat none := by
  unfold gridGet
  rw [if_pos ⟨h1, h2⟩]

/-- A write inside the board succeeds and produces the expected grid. -/
lemma gridSet_isOk {size : Nat} {g : Grid} {p : Pos} (hd : gridDims size g)
    (hp : inGrid size p) (ch : Char) :
    gridSet g p ch =
      .ok (g.set p.1.toNat ((g.getD p.1.toNat []).set p.2.toNat (some ch))) := by
  obtain ⟨hp1, hp2, hp3, hp4⟩ := hp
  have hrow : p.1.toNat < g.length := by rw [hd.1]; omega
  have hcol : p.2.toNat < (g.getD p.1.toNat []).length := by
    rw [gridDims_row hd hrow]; omega
  unfold gridSet
  rw [if_pos ⟨hp1, hrow, hp3, hcol⟩]

lemma gridSet_dims {size : Nat} {g g' : Grid} {p : Pos} {ch : Char}
    (hd : gridDims size g) (h : gridSet g p ch = .ok g') : gridDims size g' := by
  unfold gridSet at h
  split at h
  case isFalse => cases h
  case isTrue hb =>
    injection h with h
    rw [← h]
    constructor
    · rw [List.length_set]; exact hd.1
    · intro row hr
      rcases List.mem_or_eq_of_mem_set hr with hmem | rfl
      · exact hd.2 _ hmem
      · rw [List.length_set]; exact gridDims_row hd hb.2.1

lemma getD_set_self {α : Type} {l : List α} {i : Nat} (hi : i < l.length) (a d : α) :
    (l.set i a).getD i d = a := by
  rw [List.getD_eq_get?, List.get?_set_eq, List.get?_eq_get hi]
  rfl

lemma getD_set_ne {α : Type} {l : List α} {i j : Nat} (h : i ≠ j) (a d : α) :
    (l.set i a).getD j d = l.getD j d := by
  rw [List.getD_eq_get?, List.get?_set_ne _ _ h, ← List.getD_eq_get?]

lemma gridSet_get_self {g g' : Grid} {p : Pos} {ch : Char}
    (h : gridSet g p ch = .ok g') : gridGet g' p = some ch := by
  unfold gridSet at h
  split at h
  case isFalse => cases h
  case isTrue hb =>
    obtain ⟨h1, h2, h3, h4⟩ := hb
    injection h with h
    rw [← h, gridGet_pos h1 h3, getD_set_self h2, getD_set_self h4]

lemma gridSet_get_other {g g' : Grid} {p : Pos} {ch : Char}
    (h : gridSet g p ch = .ok g') {q : Pos} (hne : q ≠ p) :
    gridGet g' q = gridGet g q := by
  unfold gridSet at h
  split at h
  case isFalse => cases h
  case isTrue hb =>
    obtain ⟨h1, h2, h3, h4⟩ := hb
    injection h with h
    rw [← h]
    unfold gridGet
    split
    case isFalse => rfl
    case isTrue hq =>
      obtain ⟨hq1, hq2⟩ := hq
      by_cases hrow : q.1.toNat = p.1.toNat
      · have hq1p : q.1 = p.1 := by omega
        have hcol : q.2 ≠ p.2 := fun hc => hne (Prod.ext hq1p hc)
        have hcoln : p.2.toNat ≠ q.2.toNat := by omega
        rw [hrow, getD_set_self h2, getD_set_ne hcoln]
      · rw [getD_set_ne (fun hc => hrow hc.symm)]

lemma gridSet_AZ {g g' : Grid} {p : Pos} {ch : Char}
    (h : gridSet g p ch = .ok g') (hch : 'A' ≤ ch ∧ ch ≤ 'Z') (hg : cellsAZ g) :
    cellsAZ g' := by
  unfold gridSet at h
  split at h
  case isFalse => cases h
  case isTrue hb =>
    injection h with h
    rw [← h]
    intro row hrow x hx
    rcases List.mem_or_eq_of_mem_set hrow with hmem | rfl
    · exact hg _ hmem _ hx
    · rcases List.mem_or_eq_of_mem_set hx with hmem' | heq'
      · exact hg _ (getD_mem hb.2.1 _) _ hmem'
      · injection heq' with heq'
        rw [heq']
        exact hch

/-! ### Lemmas about the write loop -/

/-- Pointwise strengthening that may use membership on the right. -/
lemma forall₂_imp_mem {α β : Type} {R S : α → β → Prop} :
    ∀ {l₁ : List α} {l₂ : List β}, List.Forall₂ R l₁ l₂ →
      (∀ a b, b ∈ l₂ → R a b → S a b) → List.Forall₂ S l₁ l₂ := by
  intro l₁ l₂ h
  induction h with
  | nil => intro _; exact List.Forall₂.nil
  | cons hR hT ih =>
    intro himp
    exact List.Forall₂.cons (himp _ _ (List.mem_cons_self _ _) hR)
      (ih fun a b hb hab => himp a b (List.mem_cons_of_mem _ hb) hab)

/-- Conjunction of two pointwise relations over the same lists. -/
lemma forall₂_conj {α β : Type} {R S : α → β → Prop} :
    ∀ {l₁ : List α} {l₂ : List β}, List.Forall₂ R l₁ l₂ → List.Forall₂ S l₁ l₂ →
      List.Forall₂ (fun a b => R a b ∧ S a b) l₁ l₂ := by
  intro l₁ l₂ h
  induction h with
  | nil => intro _; exact List.Forall₂.nil
  | cons hR hT ih =>
    intro hS
    cases hS with
    | cons hS1 hS2 => exact List.Forall₂.cons ⟨hR, hS1⟩ (ih hS2)

/-- With all target cells on the board of a well-shaped grid, the write
loop succeeds and preserves the shape. -/
lemma writeWord_total {size : Nat} :
    ∀ {w : List Char} {ps : List Pos} {g : Grid}, gridDims size g →
      List.Forall₂ (fun _ p => inGrid size p) w ps →
      ∃ g', writeWord g w ps = .ok g' ∧ gridDims size g' := by
  intro w ps g hd hf
  induction hf generalizing g with
  | nil => exact ⟨g, rfl, hd⟩
  | @cons ch p rest ps' hp _ ih =>
    have hset := gridSet_isOk hd hp ch
    obtain ⟨g', hw, hd'⟩ := ih (gridSet_dims hd hset)
    refine ⟨g', ?_, hd'⟩
    simp only [writeWord, hset]
    exact hw

lemma writeWord_dims {size : Nat} :
    ∀ {w : List Char} {ps : List Pos} {g g' : Grid},
      writeWord g w ps = .ok g' → gridDims size g → gridDims size g' := by
  intro w
  induction w with
  | nil =>
    intro ps g g' h hd
    cases ps <;> (injection h with h; rw [← h]; exact hd)
  | cons ch rest ih =>
    intro ps g g' h hd
    cases ps with
    | nil => cases h
    | cons p ps' =>
      simp only [writeWord] at h
      cases hset : gridSet g p ch with
      | error e => rw [hset] at h; cases h
      | ok g₁ =>
        rw [hset] at h
        exact ih h (gridSet_dims hd hset)

/-- The write loop does not touch cells outside its position list. -/
lemma writeWord_frame :
    ∀ {w : List Char} {ps : List Pos} {g g' : Grid},
      writeWord g w ps = .ok g' → ∀ q, q ∉ ps → gridGet g' q = gridGet g q := by
  intro w
  induction w with
  | nil =>
    intro ps g g' h q _
    cases ps <;> (injection h with h; rw [← h])
  | cons ch rest ih =>
    intro ps g g' h q hq
    cases ps with
    | nil => cases h
    | cons p ps' =>
      simp only [writeWord] at h
      cases hset : gridSet g p ch with
      | error e => rw [hset] at h; cases h
      | ok g₁ =>
        rw [hset] at h
        have hq1 : q ≠ p := fun hh => hq (hh ▸ List.mem_cons_self _ _)
        have hq2 : q ∉ ps' := fun hh => hq (List.mem_cons_of_mem _ hh)
        rw [ih h q hq2, gridSet_get_other hset hq1]

/-- After a valid scan is written, each recorded cell carries its letter. -/
lemma writeWord_establish {size : Nat} :
    ∀ {w : List Char} {ps : List Pos} {g g' : Grid}, ps.Nodup →
      List.Forall₂
        (fun ch p => inGrid size p ∧ (gridGet g p = none ∨ gridGet g p = some ch)) w ps →
      writeWord g w ps = .ok g' →
      List.Forall₂ (fun ch p => gridGet g' p = some ch) w ps := by
  intro w
  induction w with
  | nil =>
    intro ps g g' _ hf _
    cases hf
    exact List.Forall₂.nil
  | cons ch rest ih =>
    intro ps g g' hnd hf h
    cases hf with
    | @cons _ p _ ps' hR hf' =>
      simp only [writeWord] at h
      cases hset : gridSet g p ch with
      | error e => rw [hset] at h; cases h
      | ok g₁ =>
        rw [hset] at h
        have hpn : p ∉ ps' := (List.nodup_cons.mp hnd).1
        have hnd' : ps'.Nodup := (List.nodup_cons.mp hnd).2
        have hf₁ : List.Forall₂
            (fun ch q => inGrid size q ∧ (gridGet g₁ q = none ∨ gridGet g₁ q = some ch))
            rest ps' := by
          refine forall₂_imp_mem hf' fun a q hqmem hR' => ?_
          have hqp : q ≠ p := fun hh => hpn (hh ▸ hqmem)
          rw [gridSet_get_other hset hqp]
          exact hR'
        refine List.Forall₂.cons ?_ (ih hnd' hf₁ h)
        rw [writeWord_frame h p hpn]
        exact gridSet_get_self hset

/-- Writing a valid attempt rewrites occupied cells with the letter they
already carry: every occupied cell keeps its value. -/
lemma writeWord_preserve {size : Nat} :
    ∀ {w : List Char} {ps : List Pos} {g g' : Grid}, ps.Nodup →
      List.Forall₂
        (fun ch p => inGrid size p ∧ (gridGet g p = none ∨ gridGet g p = some ch)) w ps →
      writeWord g w ps = .ok g' →
      ∀ q x, gridGet g q = some x → gridGet g' q = some x := by
  intro w
  induction w with
  | nil =>
    intro ps g g' _ hf h q x hq
    cases hf
    injection h with h
    rw [← h]
    exact hq
  | cons ch rest ih =>
    intro ps g g' hnd hf h q x hq
    cases hf with
    | @cons _ p _ ps' hR hf' =>
      simp only [writeWord] at h
      cases hset : gridSet g p ch with
      | error e => rw [hset] at h; cases h
      | ok g₁ =>
        rw [hset] at h
        have hpn : p ∉ ps' := (List.nodup_cons.mp hnd).1
        have hnd' : ps'.Nodup := (List.nodup_cons.mp hnd).2
        have hf₁ : List.Forall₂
            (fun ch q => inGrid size q ∧ (gridGet g₁ q = none ∨ gridGet g₁ q = some ch))
            rest ps' := by
          refine forall₂_imp_mem hf' fun a r hrmem hR' => ?_
          have hrp : r ≠ p := fun hh => hpn (hh ▸ hrmem)
          rw [gridSet_get_other hset hrp]
          exact hR'
        have hq₁ : gridGet g₁ q = some x := by
          by_cases hqp : q = p
          · rcases hR.2 with hc | hc
            · rw [hqp] at hq; rw [hq] at hc; cases hc
            · rw [hqp] at hq
              rw [hq] at hc
              injection hc with hc
              rw [hqp, gridSet_get_self hset, hc]
          · rw [gridSet_get_other hset hqp]
            exact hq
        exact ih hnd' hf₁ h q x hq₁

/-- The write loop only deposits letters of the word being written. -/
lemma writeWord_AZ :
    ∀ {w : List Char} {ps : List Pos} {g g' : Grid},
      writeWord g w ps = .ok g' → (∀ ch ∈ w, 'A' ≤ ch ∧ ch ≤ 'Z') →
      cellsAZ g → cellsAZ g' := by
  intro w
  induction w with
  | nil =>
    intro ps g g' h _ hg
    cases ps <;> (injection h with h; rw [← h]; exact hg)
  | cons ch rest ih =>
    intro ps g g' h hw hg
    cases ps with
    | nil => cases h
    | cons p ps' =>
      simp only [writeWord] at h
      cases hset : gridSet g p ch with
      | error e => rw [hset] at h; cases h
      | ok g₁ =>
        rw [hset] at h
        exact ih h (fun c hc => hw c (List.mem_cons_of_mem _ hc))
          (gridSet_AZ hset (hw ch (List.mem_cons_self _ _)) hg)

/-! ### The attempt loop and the word loop -/

/-- A successful try certifies every recorded cell (on the board, empty or
carrying the needed letter). -/
lemma attempt_valid {size : Nat} {rho : Nat → Nat} {k : Nat} {g : Grid}
    {word : List Char} {ps : List Pos} (h : attempt size rho k g word = some ps) :
    List.Forall₂
      (fun ch p => inGrid size p ∧ (gridGet g p = none ∨ gridGet g p = some ch)) word ps := by
  simp only [attempt] at h
  exact scanWord_valid word 0 ps h

/-- The recorded cells of a successful try are pairwise distinct. -/
lemma attempt_nodup {size : Nat} {rho : Nat → Nat} {k : Nat} {g : Grid}
    {word : List Char} {ps : List Pos} (h : attempt size rho k g word = some ps) :
    ps.Nodup := by
  simp only [attempt] at h
  exact scanWord_nodup (dir_getD_ne_zero _) h

/-- The attempt loop never errors on a well-shaped grid; it preserves the
shape, keeps every occupied cell, deposits only the word letters, and on
success leaves the word readable along the recorded cells. -/
lemma placeWord_spec {size : Nat} (rho : Nat → Nat) :
    ∀ (fuel k : Nat) (g : Grid) (word : List Char), gridDims size g →
      ∃ g' res k', placeWord size rho fuel k g word = .ok (g', res, k') ∧
        gridDims size g' ∧
        (∀ q x, gridGet g q = some x → gridGet g' q = some x) ∧
        ((∀ ch ∈ word, 'A' ≤ ch ∧ ch ≤ 'Z') → cellsAZ g → cellsAZ g') ∧
        (∀ ps, res = some ps →
          List.Forall₂ (fun ch p => inGrid size p ∧ gridGet g' p = some ch) word ps) := by
  intro fuel
  induction fuel with
  | zero =>
    intro k g word hd
    exact ⟨g, none, k, rfl, hd, fun _ _ h => h, fun _ h => h, fun ps h => by cases h⟩
  | succ fuel ih =>
    intro k g word hd
    cases hscan : attempt size rho k g word with
    | none =>
      obtain ⟨g', res, k', heq, hd', hpres, hAZ, hres⟩ := ih (k + 3) g word hd
      refine ⟨g', res, k', ?_, hd', hpres, hAZ, hres⟩
      simp only [placeWord, hscan]
      exact heq
    | some ps =>
      have hval := attempt_valid hscan
      have hnd := attempt_nodup hscan
      have hbounds : List.Forall₂ (fun (_ : Char) p => inGrid size p) word ps :=
        hval.imp fun _ _ hab => hab.1
      obtain ⟨g', hw, hd'⟩ := writeWord_total hd hbounds
      refine ⟨g', some ps, k + 3, ?_, hd', ?_, ?_, ?_⟩
      · simp only [placeWord, hscan, hw]
      · exact writeWord_preserve hnd hval hw
      · exact fun hword hAZ => writeWord_AZ hw hword hAZ
      · intro ps₀ hps₀
        injection hps₀ with hps₀
        rw [← hps₀]
        exact forall₂_conj (hbounds) (writeWord_establish hnd hval hw)

/-- The word loop never errors on a well-shaped grid; every recorded
placement is unclaimed and readable in the final pre-fill grid, and the
recorded words form a sublist of the uppercased input words. -/
lemma placeWords_spec {size : Nat} (rho : Nat → Nat) :
    ∀ (ws : List (List Char)) (g : Grid) (k : Nat), gridDims size g →
      ∃ g' wds k', placeWords size rho ws g k = .ok (g', wds, k') ∧
        gridDims size g' ∧
        (∀ q x, gridGet g q = some x → gridGet g' q = some x) ∧
        ((∀ w ∈ ws, ∀ ch ∈ w, 'A' ≤ ch.toUpper ∧ ch.toUpper ≤ 'Z') →
          cellsAZ g → cellsAZ g') ∧
        (∀ wd ∈ wds, wd.foundBy = none ∧
          List.Forall₂ (fun ch p => inGrid size p ∧ gridGet g' p = some ch)
            wd.word wd.positions) ∧
        (wds.map (·.word)).Sublist (ws.map fun w => w.map Char.toUpper) := by
  intro ws
  induction ws with
  | nil =>
    intro g k hd
    exact ⟨g, [], k, rfl, hd, fun _ _ h => h, fun _ h => h,
      fun wd h => absurd h (List.not_mem_nil _), List.nil_sublist _⟩
  | cons w ws ih =>
    intro g k hd
    obtain ⟨g₁, res, k₁, heq1, hd₁, hpres₁, hAZ₁, hres₁⟩ :=
      placeWord_spec rho 100 k g (w.map Char.toUpper) hd
    obtain ⟨g₂, wds₂, k₂, heq2, hd₂, hpres₂, hAZ₂, hwds₂, hsub₂⟩ := ih g₁ k₁ hd₁
    have hAZhead : (∀ v ∈ w :: ws, ∀ ch ∈ v, 'A' ≤ ch.toUpper ∧ ch.toUpper ≤ 'Z') →
        ∀ ch ∈ w.map Char.toUpper, 'A' ≤ ch ∧ ch ≤ 'Z' := by
      intro hall ch hch
      obtain ⟨c, hc, rfl⟩ := List.mem_map.mp hch
      exact hall w (List.mem_cons_self _ _) c hc
    have hAZtail : (∀ v ∈ w :: ws, ∀ ch ∈ v, 'A' ≤ ch.toUpper ∧ ch.toUpper ≤ 'Z') →
        ∀ v ∈ ws, ∀ ch ∈ v, 'A' ≤ ch.toUpper ∧ ch.toUpper ≤ 'Z' :=
      fun hall v hv => hall v (List.mem_cons_of_mem _ hv)
    cases res with
    | none =>
      refine ⟨g₂, wds₂, k₂, ?_, hd₂, fun q x h => hpres₂ q x (hpres₁ q x h),
        fun hall hAZ => hAZ₂ (hAZtail hall) (hAZ₁ (hAZhead hall) hAZ), hwds₂,
        hsub₂.cons _⟩
      simp only [placeWords, heq1, heq2]
    | some ps =>
      refine ⟨g₂, ⟨w.map Char.toUpper, none, ps⟩ :: wds₂, k₂, ?_, hd₂,
        fun q x h => hpres₂ q x (hpres₁ q x h),
        fun hall hAZ => hAZ₂ (hAZtail hall) (hAZ₁ (hAZhead hall) hAZ), ?_, ?_⟩
      · simp only [placeWords, heq1, heq2]
      · intro wd hwd
        rcases List.mem_cons.mp hwd with rfl | hwd'
        · refine ⟨rfl, ?_⟩
          have := hres₁ ps rfl
          exact this.imp fun _ _ hab => ⟨hab.1, hpres₂ _ _ hab.2⟩
        · exact hwds₂ wd hwd'
      · exact hsub₂.cons₂ _

/-! ### Lemmas about the random fill -/

lemma fillRow_length (rho : Nat → Nat) :
    ∀ (row : List Cell) (k : Nat), (fillRow rho row k).1.length = row.length := by
  intro row
  induction row with
  | nil => intro k; rfl
  | cons cell rest ih =>
    intro k
    cases cell with
    | some ch => simp only [fillRow, List.length_cons, ih]
    | none => simp only [fillRow, List.length_cons, ih]

/-- The fill keeps every occupied cell, positionally. -/
lemma fillRow_get (rho : Nat → Nat) :
    ∀ (row : List Cell) (k j : Nat) (ch : Char), row.get? j = some (some ch) →
      (fillRow rho row k).1.get? j = some ch := by
  intro row
  induction row with
  | nil => intro k j ch h; cases h
  | cons cell rest ih =>
    intro k j ch h
    cases j with
    | zero =>
      cases cell with
      | some c =>
        simp only [List.get?_cons_zero, Option.some.injEq] at h
        simp only [fillRow, List.get?_cons_zero, h]
      | none => simp at h
    | succ j =>
      rw [List.get?_cons_succ] at h
      cases cell with
      | some c => simpa only [fillRow, List.get?_cons_succ] using ih _ j ch h
      | none => simpa only [fillRow, List.get?_cons_succ] using ih _ j ch h

/-- A random fill letter is always in A..Z. -/
lemma fillChar_AZ (n : Nat) :
    'A' ≤ Char.ofNat (65 + (randomInt 0 25 n).toNat) ∧
    Char.ofNat (65 + (randomInt 0 25 n).toNat) ≤ 'Z' := by
  obtain ⟨h0, h1⟩ := randomInt_bounds 25 (by omega) n
  have hm : (randomInt 0 25 n).toNat ≤ 25 := by omega
  set m := (randomInt 0 25 n).toNat with hmdef
  clear_value m
  interval_cases m <;> exact ⟨by decide, by decide⟩

/-- Every letter of a filled row is A..Z, provided the already occupied
cells were. -/
lemma fillRow_AZ (rho : Nat → Nat) :
    ∀ (row : List Cell) (k : Nat),
      (∀ ch : Char, some ch ∈ row → 'A' ≤ ch ∧ ch ≤ 'Z') →
      ∀ ch ∈ (fillRow rho row k).1, 'A' ≤ ch ∧ ch ≤ 'Z' := by
  intro row
  induction row with
  | nil => intro k _ ch h; cases h
  | cons cell rest ih =>
    intro k hAZ ch hch
    cases cell with
    | some c =>
      simp only [fillRow] at hch
      rcases List.mem_cons.mp hch with rfl | hch'
      · exact hAZ ch (List.mem_cons_self _ _)
      · exact ih _ (fun x hx => hAZ x (List.mem_cons_of_mem _ hx)) ch hch'
    | none =>
      simp only [fillRow] at hch
      rcases List.mem_cons.mp hch with rfl | hch'
      · exact fillChar_AZ _
      · exact ih _ (fun x hx => hAZ x (List.mem_cons_of_mem _ hx)) ch hch'

lemma fillGrid_length (rho : Nat → Nat) :
    ∀ (g : Grid) (k : Nat), (fillGrid rho g k).1.length = g.length := by
  intro g
  induction g with
  | nil => intro k; rfl
  | cons row rest ih => intro k; simp only [fillGrid, List.length_cons, ih]

/-- Each row of the filled grid is the fill of the matching source row. -/
lemma fillGrid_get (rho : Nat → Nat) :
    ∀ (g : Grid) (k i : Nat) (row : List Cell), g.get? i = some row →
      ∃ k', (fillGrid rho g k).1.get? i = some (fillRow rho row k').1 := by
  intro g
  induction g with
  | nil => intro k i row h; cases h
  | cons r rest ih =>
    intro k i row h
    cases i with
    | zero =>
      injection h with h
      exact ⟨k, by simp only [fillGrid, List.get?_cons_zero, h]⟩
    | succ i =>
      rw [List.get?_cons_succ] at h
      obtain ⟨k', hk'⟩ := ih (fillRow rho r k).2 i row h
      exact ⟨k', by simpa only [fillGrid, List.get?_cons_succ] using hk'⟩

/-- Membership form: every row of the filled grid is a filled source row. -/
lemma fillGrid_mem (rho : Nat → Nat) :
    ∀ (g : Grid) (k : Nat) (row' : List Char), row' ∈ (fillGrid rho g k).1 →
      ∃ row ∈ g, ∃ k', row' = (fillRow rho row k').1 := by
  intro g
  induction g with
  | nil => intro k row' h; cases h
  | cons r rest ih =>
    intro k row' h
    simp only [fillGrid] at h
    rcases List.mem_cons.mp h with rfl | h'
    · exact ⟨r, List.mem_cons_self _ _, k, rfl⟩
    · obtain ⟨row, hrow, k', hk'⟩ := ih _ _ h'
      exact ⟨row, List.mem_cons_of_mem _ hrow, k', hk'⟩

/-- Reading the final grid at a cell the pre-fill grid occupied returns the
occupying letter. -/
lemma charAt_of_gridGet {g : Grid} {p : Pos} {ch : Char}
    (h : gridGet g p = some ch) (rho : Nat → Nat) (k : Nat) :
    charAt (fillGrid rho g k).1 p = ch := by
  unfold gridGet at h
  split at h
  case isFalse => cases h
  case isTrue hpos =>
    by_cases hlen : p.1.toNat < g.length
    case neg =>
      have hnil : g.getD p.1.toNat [] = [] := List.getD_eq_default _ _ (by omega)
      rw [hnil] at h
      cases h
    case pos =>
      by_cases hcol : p.2.toNat < (g.getD p.1.toNat []).length
      case neg =>
        have hnone : (g.getD p.1.toNat []).getD p.2.toNat none = none :=
          List.getD_eq_default _ _ (by omega)
        rw [hnone] at h
        cases h
      case pos =>
        have hget : g.get? p.1.toNat = some (g.getD p.1.toNat []) := by
          rw [List.get?_eq_get hlen]
          congr 1
          rw [List.getD_eq_get?, List.get?_eq_get hlen]
          rfl
        have hcell : (g.getD p.1.toNat []).get? p.2.toNat = some (some ch) := by
          rw [List.getD_eq_get?] at h
          cases hr : (g.getD p.1.toNat []).get? p.2.toNat with
          | none => rw [hr] at h; cases h
          | some c =>
            rw [hr] at h
            rw [Option.getD_some] at h
            rw [h]
        obtain ⟨k', hfg⟩ := fillGrid_get rho g k p.1.toNat _ hget
        unfold charAt
        have hrow' : (fillGrid rho g k).1.getD p.1.toNat [] =
            (fillRow rho (g.getD p.1.toNat []) k').1 := by
          rw [List.getD_eq_get?, hfg]
          rfl
        rw [hrow']
        have hfr := fillRow_get rho _ k' p.2.toNat ch hcell
        rw [List.getD_eq_get?, hfr]
        rfl

/-- Pointwise reading turns a Forall₂ into a map equality. -/
lemma map_eq_of_forall₂ {α β : Type} {f : β → α} :
    ∀ {l₁ : List α} {l₂ : List β}, List.Forall₂ (fun a b => f b = a) l₁ l₂ →
      l₂.map f = l₁ := by
  intro l₁ l₂ h
  induction h with
  | nil => rfl
  | cons hR _ ih => simp only [List.map_cons, hR, ih]

/-! ### The generator theorems -/

/-- C2: for every grid the generator returns, reading the final grid
along each recorded placement, in order, reproduces exactly the uppercased
word of that placement. -/
theorem claim2_placements_read_back (size : Nat) (words : List (List Char))
    (rho : Nat → Nat) (grid : List (List Char)) (wds : List WordData)
    (h : generateGrid size words rho = .ok (grid, wds)) :
    ∀ wd ∈ wds, wd.positions.map (charAt grid) = wd.word := by
  obtain ⟨g', wds', k', heq, hd', hpres, hAZ, hwds, hsub⟩ :=
    placeWords_spec rho words (List.replicate size (List.replicate size none)) 0
      (gridDims_replicate size)
  unfold generateGrid at h
  rw [heq] at h
  injection h with h
  obtain ⟨hgrid, hwds'⟩ := Prod.mk.injEq .. ▸ h
  intro wd hwd
  rw [← hwds'] at hwd
  have hf := (hwds wd hwd).2
  apply map_eq_of_forall₂
  rw [← hgrid]
  exact hf.imp fun _ _ hab => charAt_of_gridGet hab.2 rho k'

/-- Witness for C2: a concrete 3-by-3 generation of the word AB with the
all-zero oracle, read back along its recorded cells. -/
theorem claim2_placements_read_back_witness :
    ([((0 : Int), (0 : Int)), (0, 1)] : List Pos).map
      (charAt [['A', 'B', 'A'], ['A', 'A', 'A'], ['A', 'A', 'A']]) = ['A', 'B'] :=
  claim2_placements_read_back 3 [['A', 'B']] (fun _ => 0)
    [['A', 'B', 'A'], ['A', 'A', 'A'], ['A', 'A', 'A']]
    [⟨['A', 'B'], none, [(0, 0), (0, 1)]⟩] (by rfl)
    ⟨['A', 'B'], none, [(0, 0), (0, 1)]⟩ (List.mem_singleton_self _)

/-- C9: for every size and word list the generator terminates normally
with a result (the model errors exactly where the source could fault, so
this is "never raises"); each word gets at most 100 attempts — the fuel of
`placeWord` — and the recorded words are a sublist of the uppercased input
words: failed words are silently omitted, never an error. -/
theorem claim9_generator_never_fails (size : Nat) (hsize : 1 ≤ size)
    (words : List (List Char)) (rho : Nat → Nat) :
    ∃ (grid : List (List Char)) (wds : List WordData),
      generateGrid size words rho = .ok (grid, wds) ∧
      (wds.map (·.word)).Sublist (words.map fun w => w.map Char.toUpper) := by
  obtain ⟨g', wds', k', heq, _, _, _, _, hsub⟩ :=
    placeWords_spec rho words (List.replicate size (List.replicate size none)) 0
      (gridDims_replicate size)
  refine ⟨(fillGrid rho g' k').1, wds', ?_, hsub⟩
  unfold generateGrid
  rw [heq]

/-- Witness for C9 at size 1 with the empty word list. -/
theorem claim9_generator_never_fails_witness :
    ∃ (grid : List (List Char)) (wds : List WordData),
      generateGrid 1 [] (fun _ => 0) = .ok (grid, wds) ∧
      (wds.map (·.word)).Sublist (([] : List (List Char)).map fun w => w.map Char.toUpper) :=
  claim9_generator_never_fails 1 (by decide) [] (fun _ => 0)

/-- Counterexample to C7 as stated over every word list: generating the
single word "9" on a 1-by-1 grid leaves the digit 9 in a cell, which is not
an A-Z letter. -/
theorem claim7_counterexample :
    (generateGrid 1 [['9']] (fun _ => 0)).toOption =
      some ([['9']], [⟨['9'], none, [(0, 0)]⟩]) ∧
    ¬('A' ≤ '9' ∧ '9' ≤ 'Z') := by
  decide

/-- C7 amended: for every size at least 1 and every word list whose
characters uppercase into A..Z, the generator returns a size-by-size grid
in which every cell holds exactly one character in A..Z; in particular no
empty or sentinel cell remains (the grid type has exactly one character per
cell). -/
theorem claim7_grid_filled_amended (size : Nat) (hsize : 1 ≤ size)
    (words : List (List Char)) (rho : Nat → Nat)
    (hwords : ∀ w ∈ words, ∀ ch ∈ w, 'A' ≤ ch.toUpper ∧ ch.toUpper ≤ 'Z')
    (grid : List (List Char)) (wds : List WordData)
    (h : generateGrid size words rho = .ok (grid, wds)) :
    grid.length = size ∧
    ∀ row ∈ grid, row.length = size ∧ ∀ ch ∈ row, 'A' ≤ ch ∧ ch ≤ 'Z' := by
  obtain ⟨g', wds', k', heq, hd', hpres, hAZ, hwds, hsub⟩ :=
    placeWords_spec rho words (List.replicate size (List.replicate size none)) 0
      (gridDims_replicate size)
  unfold generateGrid at h
  rw [heq] at h
  injection h with h
  obtain ⟨hgrid, hwds'⟩ := Prod.mk.injEq .. ▸ h
  have hcells : cellsAZ g' := hAZ hwords (cellsAZ_replicate size)
  constructor
  · rw [← hgrid, fillGrid_length, hd'.1]
  · intro row hrow
    rw [← hgrid] at hrow
    obtain ⟨r, hr, k'', hk''⟩ := fillGrid_mem rho g' k' row hrow
    constructor
    · rw [hk'', fillRow_length]
      exact hd'.2 _ hr
    · rw [hk'']
      exact fillRow_AZ rho r k'' (fun x hx => hcells _ hr x hx)

/-- Witness for the amended C7: size 1, empty word list, all-zero oracle. -/
theorem claim7_grid_filled_amended_witness :
    ([['A']] : List (List Char)).length = 1 ∧
    ∀ row ∈ ([['A']] : List (List Char)), row.length = 1 ∧
      ∀ ch ∈ row, 'A' ≤ ch ∧ ch ≤ 'Z' :=
  claim7_grid_filled_amended 1 (by decide) [] (fun _ => 0)
    (fun w hw => absurd hw (List.not_mem_nil _)) [['A']] [] (by rfl)

/-! ### The selection invariant -/

/-- An in-progress selection is empty, a single pressed cell, or a line at
a constant nonzero unit step. -/
def StraightSel (l : List Pos) : Prop :=
  l.length ≤ 1 ∨
  ∃ sR sC : Int, ¬(sR = 0 ∧ sC = 0) ∧ sR.natAbs ≤ 1 ∧ sC.natAbs ≤ 1 ∧
    ∀ i p q, l.get? i = some p → l.get? (i + 1) = some q → q = (p.1 + sR, p.2 + sC)

/-- The head of a successful getLine is the anchor. -/
lemma getLine_head? {s e : Pos} {l : List Pos} (h : getLine s e = some l) :
    l.head? = some s := by
  obtain ⟨sR, sC, hform, -, -, -, -, -⟩ := getLine_spec h
  rw [hform, map_range_head?]
  simp

/-- Every successful getLine output is straight. -/
lemma getLine_straight {s e : Pos} {l : List Pos} (h : getLine s e = some l) :
    StraightSel l := by
  by_cases hlen : l.length ≤ 1
  · exact Or.inl hlen
  · obtain ⟨sR, sC, hform, h1, h2, hnz, -, -⟩ := getLine_spec h
    refine Or.inr ⟨sR, sC, hnz (by omega), h1, h2, ?_⟩
    intro i p q hp hq
    obtain ⟨hlt, -⟩ := List.get?_eq_some.mp hq
    have hlth : l.length = max (e.1 - s.1).natAbs (e.2 - s.2).natAbs + 1 := by
      simp [hform]
    rw [hlth] at hlt
    rw [hform, map_range_get? _ _ _ (by omega)] at hp
    rw [hform, map_range_get? _ _ _ (by omega)] at hq
    have hp' := Option.some_injective _ hp
    have hq' := Option.some_injective _ hq
    rw [← hp', ← hq']
    simp only [Prod.mk.injEq]
    push_cast
    constructor <;> ring

/-- Every event preserves straightness of the selection. -/
lemma straight_step (e : Event) (s : GameState) (h : StraightSel s.selected) :
    StraightSel (applyEvent e s).selected := by
  cases e with
  | mouseDown r c =>
    show StraightSel (applyMouseDown r c s).selected
    unfold applyMouseDown
    split
    · exact Or.inl (by simp)
    · exact h
  | mouseEnter r c =>
    show StraightSel (applyMouseEnter r c s).selected
    unfold applyMouseEnter
    split
    · cases hline : getLine (s.selected.headD (0, 0)) (r, c) with
      | none => exact h
      | some line => exact getLine_straight hline
    · exact h
  | mouseUp =>
    show StraightSel (applyMouseUp s).selected
    unfold applyMouseUp
    split
    · exact Or.inl (by simp)
    · cases getSelectedWord s.wordList s.selected with
      | some wd => exact h
      | none => exact Or.inl (by simp)
  | mouseLeave => exact Or.inl (by simp [applyEvent, applyMouseLeave])
  | aiTick sp pl pk =>
    show StraightSel (applyAiTick sp pl pk s).selected
    have hsel : (applyAiTick sp pl pk s).selected = s.selected := by
      unfold applyAiTick aiAttempt
      split
      · split <;> (split; · split <;> rfl
                   · rfl)
      · rfl
    rw [hsel]
    exact h
  | playerClaimFire =>
    show StraightSel (applyClaimFire .player s).selected
    unfold applyClaimFire
    split
    · split
      · split
        · exact Or.inl (by simp [claimResult])
        · exact Or.inl (by simp [claimResult])
      · exact h
    · exact h
  | aiClaimFire =>
    show StraightSel (applyClaimFire .ai s).selected
    unfold applyClaimFire
    split
    · split
      · split
        · exact h
        · exact h
      · exact h
    · exact h
  | completeFire =>
    show StraightSel (applyCompleteFire s).selected
    unfold applyCompleteFire
    split
    · exact h
    · exact h

lemma reachable_straight (wd : List WordData) (s : GameState) (hr : Reachable wd s) :
    StraightSel s.selected := by
  induction hr with
  | init => exact Or.inl (by simp [initState])
  | step e hr ih => exact straight_step e _ ih

/-- A hover never moves the anchor: the head of the selection is untouched
by mouse-enter events. -/
lemma enter_head (s : GameState) (r c : Int) :
    (applyEvent (.mouseEnter r c) s).selected.head? = s.selected.head? := by
  show (applyMouseEnter r c s).selected.head? = s.selected.head?
  unfold applyMouseEnter
  split
  case isTrue hcond =>
    cases hline : getLine (s.selected.headD (0, 0)) (r, c) with
    | none => rfl
    | some line =>
      show line.head? = s.selected.head?
      rw [getLine_head? hline]
      cases hsel : s.selected with
      | nil => exact absurd hsel hcond.2
      | cons x xs => simp
  case isFalse => rfl

/-- C10: in every reachable state the in-progress selection is empty, a
single pressed cell, or a straight line at constant nonzero unit step; and
no hover event can re-anchor it (its first cell is preserved by
mouse-enter). -/
theorem claim10_selection_invariant (wd : List WordData) (s : GameState)
    (hr : Reachable wd s) :
    StraightSel s.selected ∧
    ∀ r c, (applyEvent (.mouseEnter r c) s).selected.head? = s.selected.head? :=
  ⟨reachable_straight wd s hr, fun r c => enter_head s r c⟩

/-- Witness for C10 at the initial state, with a concrete hover. -/
theorem claim10_selection_invariant_witness :
    StraightSel (initState []).selected ∧
    (applyEvent (.mouseEnter 1 2) (initState [])).selected.head? =
      (initState []).selected.head? :=
  ⟨(claim10_selection_invariant [] _ Reachable.init).1,
   (claim10_selection_invariant [] _ Reachable.init).2 1 2⟩

/-! ### The claim ledger invariant -/

/-- The word texts of a word list. -/
def wordsOf (wl : List WordData) : List (List Char) := wl.map (·.word)

/-- The session invariant backing C4: word texts never change, no claim
timeout is pending while playing, and a pending claim always targets a
still-unclaimed word. -/
def Inv (wd0 : List WordData) (s : GameState) : Prop :=
  wordsOf s.wordList = wordsOf wd0 ∧
  (s.gameState = .playing → s.pendingClaim = none) ∧
  (∀ pc, s.pendingClaim = some pc → ∀ w ∈ s.wordList, w.word = pc.word → w.foundBy = none)

lemma claimWord_words (wl : List WordData) (w : List Char) (cl : Claimant) :
    wordsOf (claimWord wl w cl) = wordsOf wl := by
  unfold wordsOf claimWord
  rw [List.map_map]
  apply List.map_congr_left
  intro x _
  by_cases h : x.word = w <;> simp [h]

/-- In a duplicate-free word list, entries are determined by their text. -/
lemma nodup_word_eq {wl : List WordData} (hnd : (wordsOf wl).Nodup) {a b : WordData}
    (ha : a ∈ wl) (hb : b ∈ wl) (hw : a.word = b.word) : a = b :=
  List.inj_on_of_nodup_map hnd ha hb hw

/-- A resolved word is a member of the list and unclaimed. -/
lemma getSelectedWord_mem_unclaimed {wl : List WordData} {sel : List Pos} {wd : WordData}
    (h : getSelectedWord wl sel = some wd) : wd ∈ wl ∧ wd.foundBy = none := by
  have hmem := List.mem_of_find?_eq_some h
  have hpred := List.find?_some h
  simp only [arraysEqual, Bool.and_eq_true, Bool.or_eq_true, decide_eq_true_eq] at hpred
  exact ⟨hmem, hpred.1⟩

lemma firstLongest_mem : ∀ {l : List WordData} {m : WordData},
    firstLongest l = some m → m ∈ l := by
  intro l
  induction l with
  | nil => intro m h; cases h
  | cons w ws ih =>
    intro m h
    simp only [firstLongest] at h
    cases hfl : firstLongest ws with
    | none =>
      simp only [hfl] at h
      injection h with h
      exact h ▸ List.mem_cons_self _ _
    | some m' =>
      simp only [hfl] at h
      by_cases hlen : m'.word.length > w.word.length
      · rw [if_pos hlen] at h
        injection h with h
        exact h ▸ List.mem_cons_of_mem _ (ih hfl)
      · rw [if_neg hlen] at h
        injection h with h
        exact h ▸ List.mem_cons_self _ _

lemma firstLongest_isSome {l : List WordData} (h : l ≠ []) :
    ∃ m, firstLongest l = some m := by
  cases l with
  | nil => exact absurd rfl h
  | cons w ws =>
    simp only [firstLongest]
    cases firstLongest ws with
    | none => exact ⟨w, rfl⟩
    | some m' =>
      show ∃ m, (if m'.word.length > w.word.length then some m' else some w) = some m
      by_cases hlen : m'.word.length > w.word.length
      · rw [if_pos hlen]
        exact ⟨m', rfl⟩
      · rw [if_neg hlen]
        exact ⟨w, rfl⟩

/-- The chosen candidate is a candidate. -/
lemma aiChoose_mem (pl : Bool) (pick : Nat) {cands : List WordData} (h : cands ≠ []) :
    aiChoose pl pick cands ∈ cands := by
  unfold aiChoose
  split
  · obtain ⟨m, hm⟩ := firstLongest_isSome h
    rw [hm]
    exact firstLongest_mem hm
  · have hlen : 0 < cands.length := List.length_pos.mpr h
    obtain ⟨h0, h1⟩ := randomInt_bounds ((cands.length : Int) - 1) (by omega) pick
    exact getD_mem (by omega) _

/-- Membership in the candidate filter. -/
lemma aiCandidates_unfound {wl : List WordData} {wd : WordData}
    (h : wd ∈ aiCandidates wl) : wd ∈ wl ∧ wd.foundBy = none := by
  unfold aiCandidates at h
  exact ⟨List.mem_of_mem_filter h, by simpa using List.of_mem_filter h⟩

/-- A claim timeout firing preserves the invariant. -/
lemma claimFire_inv (cl : Claimant) (wd0 : List WordData) (s : GameState)
    (h : Inv wd0 s) : Inv wd0 (applyClaimFire cl s) := by
  obtain ⟨hw, hpn, hpo⟩ := h
  unfold applyClaimFire
  split
  · rename_i pc heq
    split
    · split
      · show Inv wd0 { claimResult cl pc s with gameState := .completed }
        refine ⟨?_, ?_, ?_⟩
        · show wordsOf (claimWord s.wordList pc.word cl) = wordsOf wd0
          rw [claimWord_words]
          exact hw
        · intro hpl
          simp [claimResult] at hpl
        · intro pc' hpc'
          simp [claimResult] at hpc'
      · show Inv wd0 (claimResult cl pc s)
        refine ⟨?_, ?_, ?_⟩
        · show wordsOf (claimWord s.wordList pc.word cl) = wordsOf wd0
          rw [claimWord_words]
          exact hw
        · intro hpl
          show (claimResult cl pc s).pendingClaim = none
          simp [claimResult]
        · intro pc' hpc'
          simp [claimResult] at hpc'
    · exact ⟨hw, hpn, hpo⟩
  · exact ⟨hw, hpn, hpo⟩

/-- Every event preserves the invariant (given pairwise-distinct words,
the data-model invariant of the specification). -/
lemma inv_step (wd0 : List WordData) (hnd : (wordsOf wd0).Nodup) (e : Event)
    (s : GameState) (h : Inv wd0 s) : Inv wd0 (applyEvent e s) := by
  obtain ⟨hw, hpn, hpo⟩ := h
  have hnds : (wordsOf s.wordList).Nodup := by rw [hw]; exact hnd
  cases e with
  | mouseDown r c =>
    show Inv wd0 (applyMouseDown r c s)
    unfold applyMouseDown
    split
    · exact ⟨hw, hpn, hpo⟩
    · exact ⟨hw, hpn, hpo⟩
  | mouseEnter r c =>
    show Inv wd0 (applyMouseEnter r c s)
    unfold applyMouseEnter
    split
    · cases getLine (s.selected.headD (0, 0)) (r, c) with
      | none => exact ⟨hw, hpn, hpo⟩
      | some line => exact ⟨hw, hpn, hpo⟩
    · exact ⟨hw, hpn, hpo⟩
  | mouseUp =>
    show Inv wd0 (applyMouseUp s)
    unfold applyMouseUp
    split
    · exact ⟨hw, hpn, hpo⟩
    · cases hres : getSelectedWord s.wordList s.selected with
      | none => exact ⟨hw, hpn, hpo⟩
      | some wdr =>
        show Inv wd0
          { s with
            gameState := Phase.animatingPlayer,
            pendingClaim := some ⟨wdr.word, Claimant.player, wdr.positions⟩ }
        refine ⟨hw, ?_, ?_⟩
        · intro hpl
          cases hpl
        intro pc hpc w hw' hww
        injection hpc with hpc
        obtain ⟨hmem, hfb⟩ := getSelectedWord_mem_unclaimed hres
        have hwwr : w.word = wdr.word := by rw [hww, ← hpc]
        have : w = wdr := nodup_word_eq hnds hw' hmem hwwr
        rw [this]
        exact hfb
  | mouseLeave => exact ⟨hw, hpn, hpo⟩
  | aiTick sp pl pk =>
    show Inv wd0 (applyAiTick sp pl pk s)
    have hInvA : Inv wd0 (aiAttempt sp pl pk s) := by
      unfold aiAttempt
      split
      case isFalse => exact ⟨hw, hpn, hpo⟩
      case isTrue =>
        split
        case isFalse => exact ⟨hw, hpn, hpo⟩
        case isTrue hne =>
          refine ⟨hw, ?_, ?_⟩
          · intro hc
            cases hc
          intro pc hpc w hw' hww
          injection hpc with hpc
          obtain ⟨hmem, hfb⟩ := aiCandidates_unfound (aiChoose_mem pl pk hne)
          have hwwr : w.word = (aiChoose pl pk (aiCandidates s.wordList)).word := by
            rw [hww, ← hpc]
          have : w = aiChoose pl pk (aiCandidates s.wordList) :=
            nodup_word_eq hnds hw' hmem hwwr
          rw [this]
          exact hfb
    unfold applyAiTick
    split
    case isFalse => exact ⟨hw, hpn, hpo⟩
    case isTrue =>
      split
      · obtain ⟨a, b, c⟩ := hInvA
        exact ⟨a, b, c⟩
      · exact hInvA
  | playerClaimFire => exact claimFire_inv .player wd0 s ⟨hw, hpn, hpo⟩
  | aiClaimFire => exact claimFire_inv .ai wd0 s ⟨hw, hpn, hpo⟩
  | completeFire =>
    show Inv wd0 (applyCompleteFire s)
    unfold applyCompleteFire
    split
    · refine ⟨hw, ?_, hpo⟩
      intro hc
      cases hc
    · exact ⟨hw, hpn, hpo⟩

lemma reachable_inv (wd0 : List WordData) (hnd : (wordsOf wd0).Nodup) (s : GameState)
    (hr : Reachable wd0 s) : Inv wd0 s := by
  induction hr with
  | init => exact ⟨rfl, fun _ => rfl, fun pc h => by cases h⟩
  | step e hr ih => exact inv_step wd0 hnd e _ ih

/-- Every event either leaves the word list untouched or applies the
pending claim. -/
lemma applyEvent_wordList (e : Event) (s : GameState) :
    (applyEvent e s).wordList = s.wordList ∨
    ∃ pc cl, s.pendingClaim = some pc ∧
      (applyEvent e s).wordList = claimWord s.wordList pc.word cl := by
  cases e with
  | mouseDown r c =>
    left
    show (applyMouseDown r c s).wordList = s.wordList
    unfold applyMouseDown
    split <;> rfl
  | mouseEnter r c =>
    left
    show (applyMouseEnter r c s).wordList = s.wordList
    unfold applyMouseEnter
    split
    · cases getLine (s.selected.headD (0, 0)) (r, c) <;> rfl
    · rfl
  | mouseUp =>
    left
    show (applyMouseUp s).wordList = s.wordList
    unfold applyMouseUp
    split
    · rfl
    · cases getSelectedWord s.wordList s.selected <;> rfl
  | mouseLeave => left; rfl
  | aiTick sp pl pk =>
    left
    show (applyAiTick sp pl pk s).wordList = s.wordList
    have hA : (aiAttempt sp pl pk s).wordList = s.wordList := by
      unfold aiAttempt
      split
      · split <;> rfl
      · rfl
    unfold applyAiTick
    split
    · split
      · exact hA
      · exact hA
    · rfl
  | playerClaimFire =>
    show (applyClaimFire .player s).wordList = s.wordList ∨
      ∃ pc cl, s.pendingClaim = some pc ∧
        (applyClaimFire .player s).wordList = claimWord s.wordList pc.word cl
    unfold applyClaimFire
    split
    · rename_i pc heq
      split
      · right
        refine ⟨pc, .player, heq, ?_⟩
        split <;> rfl
      · left; rfl
    · left; rfl
  | aiClaimFire =>
    show (applyClaimFire .ai s).wordList = s.wordList ∨
      ∃ pc cl, s.pendingClaim = some pc ∧
        (applyClaimFire .ai s).wordList = claimWord s.wordList pc.word cl
    unfold applyClaimFire
    split
    · rename_i pc heq
      split
      · right
        refine ⟨pc, .ai, heq, ?_⟩
        split <;> rfl
      · left; rfl
    · left; rfl
  | completeFire =>
    left
    show (applyCompleteFire s).wordList = s.wordList
    unfold applyCompleteFire
    split <;> rfl

/-- C4: in every reachable state of a session over pairwise-distinct
words: a claimed entry keeps its claimant across every further event (the
foundBy transition none-to-terminal is monotone); resolution never returns
an already-claimed word, so replaying a finished selection against its
claimed word produces no new claim or score; and the rival candidate set
contains only unclaimed words. -/
theorem claim4_claims_monotone (wd0 : List WordData) (hnd : (wd0.map (·.word)).Nodup)
    (s : GameState) (hr : Reachable wd0 s) (e : Event) :
    (∀ i w p, s.wordList.get? i = some w → w.foundBy = some p →
      ∃ w', (applyEvent e s).wordList.get? i = some w' ∧ w'.word = w.word ∧
        w'.foundBy = some p)
    ∧ (∀ sel wd, getSelectedWord s.wordList sel = some wd → wd.foundBy = none)
    ∧ (∀ wd ∈ aiCandidates s.wordList, wd.foundBy = none) := by
  have hInv := reachable_inv wd0 hnd s hr
  refine ⟨?_, fun sel wd h => (getSelectedWord_mem_unclaimed h).2,
    fun wd h => (aiCandidates_unfound h).2⟩
  intro i w p hi hp
  rcases applyEvent_wordList e s with heq | ⟨pc, cl, hpc, heq⟩
  · exact ⟨w, by rw [heq, hi], rfl, hp⟩
  · rw [heq]
    unfold claimWord
    rw [List.get?_map, hi]
    simp only [Option.map_some']
    by_cases hww : w.word = pc.word
    · have hmem : w ∈ s.wordList := List.get?_mem hi
      have hnone := hInv.2.2 pc hpc w hmem hww
      rw [hp] at hnone
      cases hnone
    · rw [if_neg hww]
      exact ⟨w, rfl, rfl, hp⟩

/-- Witness for C4: a session whose single word is already claimed by the
player; an AI tick leaves the claim untouched. -/
theorem claim4_claims_monotone_witness :
    ∃ w', (applyEvent (.aiTick true false 0)
        (initState [⟨['A', 'B'], some .player, [(0, 0), (0, 1)]⟩])).wordList.get? 0 =
        some w' ∧
      w'.word = (⟨['A', 'B'], some .player, [(0, 0), (0, 1)]⟩ : WordData).word ∧
      w'.foundBy = some .player :=
  (claim4_claims_monotone [⟨['A', 'B'], some .player, [(0, 0), (0, 1)]⟩] (by decide)
    _ Reachable.init (.aiTick true false 0)).1 0 _ .player rfl rfl

/-! ### The completion bug (C1) -/

/-- C1 code bug: the completion check of the AI interval also fires
on `foundWords.length + 1 >= wordList.length`, i.e. with one placement
still unclaimed, even when the tick attempted no claim: in a session whose
word list has a single placement, one tick with a failed skill draw
schedules the completion timeout, and the session reaches Completed while
that placement still has `claimedBy = None` — contradicting the claim that
Completed is reached only when every surviving placement is claimed. -/
theorem claim1_premature_completion_bug :
    Reachable [⟨['A', 'B'], none, [(0, 0), (0, 1)]⟩]
      (applyEvent .completeFire (applyEvent (.aiTick false false 0)
        (initState [⟨['A', 'B'], none, [(0, 0), (0, 1)]⟩]))) ∧
    (applyEvent .completeFire (applyEvent (.aiTick false false 0)
      (initState [⟨['A', 'B'], none, [(0, 0), (0, 1)]⟩]))).gameState = .completed ∧
    (applyEvent .completeFire (applyEvent (.aiTick false false 0)
      (initState [⟨['A', 'B'], none, [(0, 0), (0, 1)]⟩]))).wordList.get? 0 =
      some ⟨['A', 'B'], none, [(0, 0), (0, 1)]⟩ := by
  refine ⟨Reachable.step _ (Reachable.step _ Reachable.init), ?_, ?_⟩ <;> decide

end WordGame
